import Mathlib

/-
Verification of the oneseismic core against its specification.

The development shallowly embeds the components the claims are about:

* the geometry kernel (global/local/fragment-id conversions, slice
  enumeration).  The kernel header itself is not part of the snapshot (only
  its test-suite is), so the kernel operations are modelled from the spec and
  checked against the concrete expectations of the test-suite;
* the planner in plan.cpp: the shared partitioner, the slice builder
  and the curtain builder;
* the keyring in auth.go (sign/validate of per-process tokens);
* the result broker in endpoint.go (status endpoint, one-shot result
  endpoint, streaming frame encoding).

Machine integers are modelled as Nat (C++ std::size_t / Go non-negative
counters) or Int (C++ int / Go int where negative values are meaningful);
none of the verified quantities approach overflow for realistic surveys,
matching the spec requirement that 64-bit arithmetic is sufficient.
-/

namespace Oneseismic

/-- Modelled from the spec: an integer 3-tuple
(CubePoint / CubeShape / FragmentPoint / FragmentShape / FragmentID all share
this representation; the distinction is by use-site, as in sc::gvt).  The
geometry header is not part of the snapshot. -/
structure P3 where
  x : Nat
  y : Nat
  z : Nat
deriving DecidableEq, Repr

/-- Component access by axis, mirroring operator[] of the vector base. -/
def P3.get (p : P3) (d : Fin 3) : Nat :=
  match d with
  | ⟨0, _⟩ => p.x
  | ⟨1, _⟩ => p.y
  | ⟨2, _⟩ => p.z

/-- Strict lexicographic order on fragment IDs (FragmentID is totally ordered
lexicographically, per the data model). -/
def P3.lexLt (a b : P3) : Prop :=
  a.x < b.x ∨ (a.x = b.x ∧ (a.y < b.y ∨ (a.y = b.y ∧ a.z < b.z)))

instance (a b : P3) : Decidable (P3.lexLt a b) := by
  unfold P3.lexLt; infer_instance

/-- Boolean version of the lexicographic order, used where the embedding of
std::lower_bound needs an executable predicate. -/
def P3.lexLtB (a b : P3) : Bool :=
  decide (P3.lexLt a b)

/-- Modelled from the spec: a geometry is the pair (CubeShape, FragmentShape)
(one::gvt of the missing geometry header). -/
structure Gvt where
  cube : P3
  frag : P3
deriving DecidableEq, Repr

/-- Modelled from the spec: to_local is componentwise p[i] mod FragmentShape[i]. -/
def Gvt.to_local (g : Gvt) (p : P3) : P3 :=
  ⟨p.x % g.frag.x, p.y % g.frag.y, p.z % g.frag.z⟩

/-- Modelled from the spec: frag_id is componentwise p[i] / FragmentShape[i]
(integer division). -/
def Gvt.frag_id (g : Gvt) (p : P3) : P3 :=
  ⟨p.x / g.frag.x, p.y / g.frag.y, p.z / g.frag.z⟩

/-- Modelled from the spec: to_global is id[i] * FragmentShape[i] + local[i]. -/
def Gvt.to_global (g : Gvt) (id lp : P3) : P3 :=
  ⟨id.x * g.frag.x + lp.x, id.y * g.frag.y + lp.y, id.z * g.frag.z + lp.z⟩

/-- Modelled from the spec: fragment_count(dim) = ceil(CubeShape[dim] /
FragmentShape[dim]). -/
def Gvt.fragment_count (g : Gvt) (d : Fin 3) : Nat :=
  (g.cube.get d + g.frag.get d - 1) / g.frag.get d

/-- Modelled from the spec: slice(dim, pin) enumerates the fragment IDs
intersecting the hyperplane at global index pin along axis dim, in
lexicographic order, the pinned component fixed at pin / FragmentShape[dim].
The enumeration is checked below against the expected id lists of the
geometry test-suite. -/
def Gvt.slice (g : Gvt) (d : Fin 3) (pin : Nat) : List P3 :=
  match d with
  | ⟨0, _⟩ =>
    (List.range (g.fragment_count 1)).flatMap fun j =>
      (List.range (g.fragment_count 2)).map fun k => ⟨pin / g.frag.x, j, k⟩
  | ⟨1, _⟩ =>
    (List.range (g.fragment_count 0)).flatMap fun i =>
      (List.range (g.fragment_count 2)).map fun k => ⟨i, pin / g.frag.y, k⟩
  | ⟨2, _⟩ =>
    (List.range (g.fragment_count 0)).flatMap fun i =>
      (List.range (g.fragment_count 1)).map fun j => ⟨i, j, pin / g.frag.z⟩

/-- C1: for every geometry with componentwise-positive CubeShape and
FragmentShape and every in-range point p, to_global(frag_id(p), to_local(p))
equals p; to_local is componentwise p[i] mod FragmentShape[i] and frag_id is
componentwise p[i] / FragmentShape[i], with no divisibility assumption
between the cube shape and the fragment shape. -/
theorem to_global_frag_id_to_local_roundtrip (g : Gvt) (p : P3)
    (hcx : 0 < g.cube.x) (hcy : 0 < g.cube.y) (hcz : 0 < g.cube.z)
    (hfx : 0 < g.frag.x) (hfy : 0 < g.frag.y) (hfz : 0 < g.frag.z)
    (hpx : p.x < g.cube.x) (hpy : p.y < g.cube.y) (hpz : p.z < g.cube.z) :
    g.to_global (g.frag_id p) (g.to_local p) = p ∧
    g.to_local p = ⟨p.x % g.frag.x, p.y % g.frag.y, p.z % g.frag.z⟩ ∧
    g.frag_id p = ⟨p.x / g.frag.x, p.y / g.frag.y, p.z / g.frag.z⟩ := by
  refine ⟨?_, rfl, rfl⟩
  obtain ⟨px, py, pz⟩ := p
  simp only [Gvt.to_global, Gvt.frag_id, Gvt.to_local, P3.mk.injEq]
  exact ⟨Nat.div_add_mod' px g.frag.x, Nat.div_add_mod' py g.frag.y,
    Nat.div_add_mod' pz g.frag.z⟩

/-- C1 witness: the round-trip at the non-divisible test geometry
(cube (220,200,100), fragment (22,20,10)) and point (55,67,88). -/
theorem to_global_frag_id_to_local_roundtrip_witness :
    (Gvt.mk ⟨220, 200, 100⟩ ⟨22, 20, 10⟩).to_global
        ((Gvt.mk ⟨220, 200, 100⟩ ⟨22, 20, 10⟩).frag_id ⟨55, 67, 88⟩)
        ((Gvt.mk ⟨220, 200, 100⟩ ⟨22, 20, 10⟩).to_local ⟨55, 67, 88⟩) =
      ⟨55, 67, 88⟩ ∧
    (Gvt.mk ⟨220, 200, 100⟩ ⟨22, 20, 10⟩).to_local ⟨55, 67, 88⟩ =
      ⟨55 % 22, 67 % 20, 88 % 10⟩ ∧
    (Gvt.mk ⟨220, 200, 100⟩ ⟨22, 20, 10⟩).frag_id ⟨55, 67, 88⟩ =
      ⟨55 / 22, 67 / 20, 88 / 10⟩ :=
  to_global_frag_id_to_local_roundtrip
    (Gvt.mk ⟨220, 200, 100⟩ ⟨22, 20, 10⟩) ⟨55, 67, 88⟩
    (by decide) (by decide) (by decide) (by decide) (by decide) (by decide)
    (by decide) (by decide) (by decide)

/-- Product of fragment_count over the non-pinned axes: the spec's formula
for the length of a slice enumeration. -/
def Gvt.otherAxesProduct (g : Gvt) (d : Fin 3) : Nat :=
  match d with
  | ⟨0, _⟩ => g.fragment_count 1 * g.fragment_count 2
  | ⟨1, _⟩ => g.fragment_count 0 * g.fragment_count 2
  | ⟨2, _⟩ => g.fragment_count 0 * g.fragment_count 1

/-- Length of a flatMap whose pieces all have the same length. -/
theorem length_flatMap_const {α β : Type} (l : List α) (f : α → List β) (n : Nat)
    (h : ∀ a ∈ l, (f a).length = n) : (l.flatMap f).length = l.length * n := by
  induction l with
  | nil => simp
  | cons a t ih =>
    simp only [List.flatMap_cons, List.length_append, List.length_cons]
    rw [h a (List.mem_cons_self a t), ih (fun b hb => h b (List.mem_cons_of_mem a hb))]
    ring

/-- A row-major double enumeration is strictly ascending whenever the outer
index dominates and the inner index breaks ties. -/
theorem pairwise_lex_product (m n : Nat) (f : Nat → Nat → P3)
    (h1 : ∀ j1 j2 k1 k2, j1 < j2 → P3.lexLt (f j1 k1) (f j2 k2))
    (h2 : ∀ j k1 k2, k1 < k2 → P3.lexLt (f j k1) (f j k2)) :
    List.Pairwise P3.lexLt
      ((List.range m).flatMap fun j => (List.range n).map fun k => f j k) := by
  rw [List.pairwise_flatMap]
  constructor
  · intro j _
    rw [List.pairwise_map]
    exact (List.pairwise_lt_range n).imp (fun h => h2 j _ _ h)
  · refine (List.pairwise_lt_range m).imp ?_
    intro j1 j2 hj x hx y hy
    simp only [List.mem_map, List.mem_range] at hx hy
    obtain ⟨k1, -, rfl⟩ := hx
    obtain ⟨k2, -, rfl⟩ := hy
    exact h1 j1 j2 k1 k2 hj

/-- C2: slice(dim, pin) lists the intersecting fragment IDs in strictly
ascending lexicographic order, with the pinned component equal to
pin / FragmentShape[dim], and with length the product of fragment_count over
the other axes; at cube (9,15,23) with fragment (3,9,5), slice(0,0) and
slice(2,17) are exactly the id lists of the test-suite. -/
theorem slice_spec (g : Gvt) (d : Fin 3) (pin : Nat)
    (hfx : 0 < g.frag.x) (hfy : 0 < g.frag.y) (hfz : 0 < g.frag.z)
    (hcx : 0 < g.cube.x) (hcy : 0 < g.cube.y) (hcz : 0 < g.cube.z)
    (hpin : pin < g.cube.get d) :
    List.Pairwise P3.lexLt (g.slice d pin) ∧
    (∀ i ∈ g.slice d pin, i.get d = pin / g.frag.get d) ∧
    (g.slice d pin).length = g.otherAxesProduct d ∧
    (Gvt.mk ⟨9, 15, 23⟩ ⟨3, 9, 5⟩).slice 0 0 =
      [⟨0, 0, 0⟩, ⟨0, 0, 1⟩, ⟨0, 0, 2⟩, ⟨0, 0, 3⟩, ⟨0, 0, 4⟩,
       ⟨0, 1, 0⟩, ⟨0, 1, 1⟩, ⟨0, 1, 2⟩, ⟨0, 1, 3⟩, ⟨0, 1, 4⟩] ∧
    (Gvt.mk ⟨9, 15, 23⟩ ⟨3, 9, 5⟩).slice 2 17 =
      [⟨0, 0, 3⟩, ⟨0, 1, 3⟩, ⟨1, 0, 3⟩, ⟨1, 1, 3⟩, ⟨2, 0, 3⟩, ⟨2, 1, 3⟩] := by
  refine ⟨?_, ?_, ?_, by decide, by decide⟩
  · fin_cases d <;>
      [exact pairwise_lex_product _ _ _
        (fun j1 j2 k1 k2 hj => Or.inr ⟨rfl, Or.inl hj⟩)
        (fun j k1 k2 hk => Or.inr ⟨rfl, Or.inr ⟨rfl, hk⟩⟩);
       exact pairwise_lex_product _ _ _
        (fun j1 j2 k1 k2 hj => Or.inl hj)
        (fun j k1 k2 hk => Or.inr ⟨rfl, Or.inr ⟨rfl, hk⟩⟩);
       exact pairwise_lex_product _ _ _
        (fun j1 j2 k1 k2 hj => Or.inl hj)
        (fun j k1 k2 hk => Or.inr ⟨rfl, Or.inl hk⟩)]
  · intro i hi
    fin_cases d <;>
      · simp only [Gvt.slice, List.mem_flatMap, List.mem_map, List.mem_range] at hi
        obtain ⟨j, -, k, -, rfl⟩ := hi
        rfl
  · fin_cases d
    · rw [Gvt.slice, Gvt.otherAxesProduct,
        length_flatMap_const _ _ (g.fragment_count 2) (fun a _ => by simp),
        List.length_range]
    · rw [Gvt.slice, Gvt.otherAxesProduct,
        length_flatMap_const _ _ (g.fragment_count 2) (fun a _ => by simp),
        List.length_range]
    · rw [Gvt.slice, Gvt.otherAxesProduct,
        length_flatMap_const _ _ (g.fragment_count 1) (fun a _ => by simp),
        List.length_range]

/-- C2 witness: the slice specification instantiated at the test geometry,
dim 2, pin 17. -/
theorem slice_spec_witness :
    List.Pairwise P3.lexLt ((Gvt.mk ⟨9, 15, 23⟩ ⟨3, 9, 5⟩).slice 2 17) ∧
    (∀ i ∈ (Gvt.mk ⟨9, 15, 23⟩ ⟨3, 9, 5⟩).slice 2 17,
      i.get 2 = 17 / (P3.mk 3 9 5).get 2) ∧
    ((Gvt.mk ⟨9, 15, 23⟩ ⟨3, 9, 5⟩).slice 2 17).length =
      (Gvt.mk ⟨9, 15, 23⟩ ⟨3, 9, 5⟩).otherAxesProduct 2 ∧
    (Gvt.mk ⟨9, 15, 23⟩ ⟨3, 9, 5⟩).slice 0 0 =
      [⟨0, 0, 0⟩, ⟨0, 0, 1⟩, ⟨0, 0, 2⟩, ⟨0, 0, 3⟩, ⟨0, 0, 4⟩,
       ⟨0, 1, 0⟩, ⟨0, 1, 1⟩, ⟨0, 1, 2⟩, ⟨0, 1, 3⟩, ⟨0, 1, 4⟩] ∧
    (Gvt.mk ⟨9, 15, 23⟩ ⟨3, 9, 5⟩).slice 2 17 =
      [⟨0, 0, 3⟩, ⟨0, 1, 3⟩, ⟨1, 0, 3⟩, ⟨1, 1, 3⟩, ⟨2, 0, 3⟩, ⟨2, 1, 3⟩] :=
  slice_spec (Gvt.mk ⟨9, 15, 23⟩ ⟨3, 9, 5⟩) 2 17
    (by decide) (by decide) (by decide) (by decide) (by decide) (by decide)
    (by decide)

/-- Error kinds raised by the planner (plan.cpp throws std::invalid_argument
and std::runtime_error). -/
inductive PlanError where
  | invalidArgument (msg : String)
  | runtimeError (msg : String)
deriving DecidableEq, Repr

/-- Embedding of task_count in plan.cpp: ceil-divide jobs by task_size and
guard against a zero result (assert in debug builds, std::runtime_error
otherwise). -/
def task_count (jobs task_size : Nat) : Except PlanError Nat :=
  let x := (jobs + (task_size - 1)) / task_size
  if x = 0 then
    Except.error (PlanError.runtimeError "task-count < 0; probably integer overflow")
  else
    Except.ok x

/-- A Fetch value as the partitioner sees it: a vector-like ids member plus
all remaining fields, which partition copies verbatim into every chunk. -/
structure Fetch (α : Type) (β : Type) where
  ids : List α
  extra : β
deriving DecidableEq, Repr

/-- Embedding of the chunking loop of schedule_maker::partition: ntasks
iterations, each taking the next task_size ids. -/
def partitionLoop (xs : List α) (task_size : Nat) : Nat → List (List α)
  | 0 => []
  | n + 1 => xs.take task_size :: partitionLoop (xs.drop task_size) task_size n

/-- Embedding of schedule_maker::partition in plan.cpp.  task_size is a C++
int, so it is modelled as Int to keep the task_size < 1 guard meaningful;
pack() is modelled as the identity on the chunked Fetch record. -/
def Fetch.partition (out : Fetch α β) (task_size : Int) :
    Except PlanError (List (Fetch α β)) :=
  if task_size < 1 then
    Except.error (PlanError.invalidArgument "task_size < 1")
  else
    match task_count out.ids.length task_size.toNat with
    | Except.error e => Except.error e
    | Except.ok ntasks =>
      Except.ok ((partitionLoop out.ids task_size.toNat ntasks).map
        (fun c => { out with ids := c }))

theorem partitionLoop_length (xs : List α) (ts n : Nat) :
    (partitionLoop xs ts n).length = n := by
  induction n generalizing xs with
  | zero => rfl
  | succ n ih => simp [partitionLoop, ih]

theorem flatten_partitionLoop (xs : List α) (ts n : Nat) :
    (partitionLoop xs ts n).flatten = xs.take (n * ts) := by
  induction n generalizing xs with
  | zero => simp [partitionLoop]
  | succ n ih =>
    simp only [partitionLoop, List.flatten_cons, ih]
    rw [Nat.succ_mul, Nat.add_comm, List.take_add]

theorem partitionLoop_dropLast_full (ts : Nat) :
    ∀ (n : Nat) (xs : List α), (n - 1) * ts < xs.length →
      ∀ c ∈ (partitionLoop xs ts n).dropLast, c.length = ts
  | 0, xs, _ => by simp [partitionLoop]
  | 1, xs, _ => by simp [partitionLoop]
  | n + 2, xs, h => by
    intro c hc
    rw [partitionLoop, List.dropLast_cons_of_ne_nil (by
      have := partitionLoop_length (xs.drop ts) ts (n + 1)
      intro hnil
      rw [hnil] at this
      simp at this)] at hc
    rcases List.mem_cons.mp hc with rfl | hc
    · have hts : ts ≤ xs.length := by
        have : (n + 1) * ts < xs.length := by simpa using h
        calc ts = 1 * ts := (Nat.one_mul ts).symm
        _ ≤ (n + 1) * ts := Nat.mul_le_mul_right ts (by omega)
        _ ≤ xs.length := Nat.le_of_lt this
      simpa using hts
    · refine partitionLoop_dropLast_full ts (n + 1) (xs.drop ts) ?_ c hc
      have h1 : (n + 1) * ts < xs.length := by simpa using h
      rw [Nat.add_mul, Nat.one_mul] at h1
      rw [List.length_drop, Nat.add_sub_cancel]
      omega

/-- Characterisation of the ceil division used by task_count, avoiding
nonlinear arithmetic at use sites. -/
theorem ceil_div_bounds (m ts : Nat) (hts : 0 < ts) (hm : 0 < m) :
    0 < (m + (ts - 1)) / ts ∧
    m ≤ ((m + (ts - 1)) / ts) * ts ∧
    ((m + (ts - 1)) / ts - 1) * ts < m := by
  have hq := Nat.div_add_mod (m + (ts - 1)) ts
  have hr : (m + (ts - 1)) % ts < ts := Nat.mod_lt _ hts
  refine ⟨?_, ?_, ?_⟩
  · have := (Nat.le_div_iff_mul_le hts).mpr
      (show 1 * ts ≤ m + (ts - 1) by omega)
    omega
  · rw [Nat.mul_comm]
    omega
  · have h1 : ((m + (ts - 1)) / ts - 1) * ts =
        ts * ((m + (ts - 1)) / ts) - ts := by
      rw [Nat.sub_one_mul, Nat.mul_comm]
    rw [h1]
    omega

/-- C3: for a non-empty ids list of length n and task_size ≥ 1, partition
returns exactly ceil(n / task_size) chunks; concatenating the ids of the
chunks in order reproduces the original ids, every chunk except possibly the
last has exactly task_size ids, and the other Fetch fields are repeated
verbatim in every chunk; for task_size < 1 it fails with an invalid-argument
error. -/
theorem partition_spec {α β : Type} (out : Fetch α β) (ts : Int) :
    (ts < 1 → out.partition ts =
      Except.error (PlanError.invalidArgument "task_size < 1")) ∧
    (1 ≤ ts → out.ids ≠ [] →
      ∃ chunks, out.partition ts = Except.ok chunks ∧
        chunks.length = (out.ids.length + (ts.toNat - 1)) / ts.toNat ∧
        out.ids.length ≤ chunks.length * ts.toNat ∧
        (chunks.length - 1) * ts.toNat < out.ids.length ∧
        (chunks.map Fetch.ids).flatten = out.ids ∧
        (∀ c ∈ chunks.dropLast, c.ids.length = ts.toNat) ∧
        (∀ c ∈ chunks, c.extra = out.extra)) := by
  constructor
  · intro h
    simp [Fetch.partition, h]
  · intro hts hne
    have htsn : 0 < ts.toNat := by omega
    have hm : 0 < out.ids.length := List.length_pos.mpr hne
    obtain ⟨hq, hub, hlb⟩ := ceil_div_bounds out.ids.length ts.toNat htsn hm
    set n := (out.ids.length + (ts.toNat - 1)) / ts.toNat with hn
    refine ⟨(partitionLoop out.ids ts.toNat n).map
      (fun c => { out with ids := c }), ?_, ?_, ?_, ?_, ?_, ?_, ?_⟩
    · have htc : task_count out.ids.length ts.toNat = Except.ok n := by
        simp only [task_count]
        rw [if_neg (by omega)]
      rw [Fetch.partition, if_neg (by omega), htc]
    · simp [partitionLoop_length]
    · simpa [partitionLoop_length] using hub
    · simpa [partitionLoop_length] using hlb
    · have : (partitionLoop out.ids ts.toNat n).map
          (fun c => Fetch.ids { out with ids := c }) =
          partitionLoop out.ids ts.toNat n := by
        simp
      rw [List.map_map]
      simp only [Function.comp_def]
      rw [this, flatten_partitionLoop, List.take_of_length_le hub]
    · intro c hc
      rw [← List.map_dropLast] at hc
      obtain ⟨c0, hc0, rfl⟩ := List.mem_map.mp hc
      simpa using partitionLoop_dropLast_full ts.toNat n out.ids
        (by simpa [partitionLoop_length] using hlb
            ) c0 hc0
    · intro c hc
      obtain ⟨c0, hc0, rfl⟩ := List.mem_map.mp hc
      rfl

/-- C3 witness: partitions [1,2,3,4,5] with task_size 2 into 3 chunks. -/
theorem partition_spec_witness :
    ∃ chunks, (Fetch.mk [1, 2, 3, 4, 5] (7 : Nat)).partition 2 = Except.ok chunks ∧
      chunks.length =
        ((Fetch.mk [1, 2, 3, 4, 5] (7 : Nat)).ids.length + ((2 : Int).toNat - 1)) /
          (2 : Int).toNat ∧
      (Fetch.mk [1, 2, 3, 4, 5] (7 : Nat)).ids.length ≤ chunks.length * (2 : Int).toNat ∧
      (chunks.length - 1) * (2 : Int).toNat <
        (Fetch.mk [1, 2, 3, 4, 5] (7 : Nat)).ids.length ∧
      (chunks.map Fetch.ids).flatten = (Fetch.mk [1, 2, 3, 4, 5] (7 : Nat)).ids ∧
      (∀ c ∈ chunks.dropLast, c.ids.length = (2 : Int).toNat) ∧
      (∀ c ∈ chunks, c.extra = (Fetch.mk ([1, 2, 3, 4, 5] : List Nat) (7 : Nat)).extra) :=
  (partition_spec (Fetch.mk [1, 2, 3, 4, 5] (7 : Nat)) 2).2 (by decide) (by decide)

/-- The manifest fields the slice builder consults: one line-number index per
axis (manifest dimensions in plan.cpp). -/
structure Manifest where
  dim0 : List Int
  dim1 : List Int
  dim2 : List Int
deriving DecidableEq, Repr

/-- Manifest dimension array selected by axis. -/
def Manifest.dims (m : Manifest) (d : Fin 3) : List Int :=
  match d with
  | ⟨0, _⟩ => m.dim0
  | ⟨1, _⟩ => m.dim1
  | ⟨2, _⟩ => m.dim2

/-- Embedding of the geometry helper of plan.cpp: the cube shape is the
per-axis length of the manifest dimensions, the fragment shape is the shape
field of the request. -/
def Manifest.geometry (m : Manifest) (shape : P3) : Gvt :=
  ⟨⟨m.dim0.length, m.dim1.length, m.dim2.length⟩, shape⟩

/-- Fields of one::slice_task that the slice builder reads. -/
structure slice_task where
  dim : Fin 3
  lineno : Int
  shape : P3
deriving DecidableEq, Repr

/-- Fields of one::slice_fetch that the slice builder writes. -/
structure slice_fetch where
  dim : Fin 3
  lineno : Nat
  shape : P3
  shape_cube : P3
  ids : List P3
deriving DecidableEq, Repr

/-- Embedding of schedule_maker(slice_task, slice_fetch)::build in plan.cpp:
look up the first position of lineno in manifest.dimensions[dim] (absence
throws), rewrite lineno to pin mod FragmentShape[dim], record the cube shape
and the fragment ids of geometry.slice(dim, pin). -/
def slice_build (task : slice_task) (m : Manifest) :
    Except PlanError slice_fetch :=
  match (m.dims task.dim).findIdx? (fun a => a == task.lineno) with
  | none => Except.error (PlanError.invalidArgument "line not found in index")
  | some pin =>
    Except.ok
      { dim := task.dim
        lineno := pin % task.shape.get task.dim
        shape := task.shape
        shape_cube := ⟨m.dim0.length, m.dim1.length, m.dim2.length⟩
        ids := (m.geometry task.shape).slice task.dim pin }

/-- C4: the slice builder fails with the not-found invalid-argument error
exactly when lineno is absent from manifest.dimensions[dim]; when lineno is
first found at position pin, the output lineno is pin mod FragmentShape[dim]
and the output ids are geometry.slice(dim, pin). -/
theorem slice_build_spec (task : slice_task) (m : Manifest) :
    (task.lineno ∉ m.dims task.dim →
      slice_build task m =
        Except.error (PlanError.invalidArgument "line not found in index")) ∧
    (∀ pin, (m.dims task.dim).findIdx? (fun a => a == task.lineno) = some pin →
      ∃ out, slice_build task m = Except.ok out ∧
        out.lineno = pin % task.shape.get task.dim ∧
        out.ids = (m.geometry task.shape).slice task.dim pin ∧
        out.shape_cube = ⟨m.dim0.length, m.dim1.length, m.dim2.length⟩) := by
  constructor
  · intro habs
    have hnone : (m.dims task.dim).findIdx? (fun a => a == task.lineno) = none := by
      rw [List.findIdx?_eq_none_iff]
      intro x hx
      rw [beq_eq_false_iff_ne]
      intro heq
      exact habs (heq ▸ hx)
    rw [slice_build, hnone]
  · intro pin hpin
    rw [slice_build, hpin]
    exact ⟨_, rfl, rfl, rfl, rfl⟩

/-- C4 witness: a 3x2x1 manifest, pinned axis 0, lineno 20 found at pin 1. -/
theorem slice_build_spec_witness :
    ∃ out,
      slice_build (slice_task.mk 0 20 ⟨2, 2, 1⟩)
          (Manifest.mk [10, 20, 30] [1, 2] [0]) = Except.ok out ∧
      out.lineno = 1 % (P3.mk 2 2 1).get 0 ∧
      out.ids = ((Manifest.mk [10, 20, 30] [1, 2] [0]).geometry ⟨2, 2, 1⟩).slice 0 1 ∧
      out.shape_cube = ⟨3, 2, 1⟩ :=
  (slice_build_spec (slice_task.mk 0 20 ⟨2, 2, 1⟩)
      (Manifest.mk [10, 20, 30] [1, 2] [0])).2 1 (by decide)

/-- C10: partition on a Fetch with an empty ids list never returns a chunk
list: task_count computes 0 and its guard fires, so the planner cannot emit
zero task messages once a query reaches partitioning. -/
theorem partition_empty_ids (out : Fetch α β) (ts : Int)
    (hts : 1 ≤ ts) (hids : out.ids = []) :
    out.partition ts =
      Except.error (PlanError.runtimeError
        "task-count < 0; probably integer overflow") := by
  rw [Fetch.partition, if_neg (by omega)]
  simp only [hids, List.length_nil, task_count, Nat.zero_add]
  rw [if_pos (Nat.div_eq_of_lt (by omega))]

/-- C10 witness: the empty-ids failure at task_size 1. -/
theorem partition_empty_ids_witness :
    (Fetch.mk ([] : List Nat) (0 : Nat)).partition 1 =
      Except.error (PlanError.runtimeError
        "task-count < 0; probably integer overflow") :=
  partition_empty_ids (Fetch.mk ([] : List Nat) (0 : Nat)) 1 (by decide) rfl

/-- A signed result token as auth.go builds it: the pid and exp claims plus
an HMAC-SHA256 signature over the claims.  The HMAC is modelled as an ideal
MAC: the signature value determines (and is determined by) the signing key
and the signed claims. -/
structure Token where
  pid : String
  exp : Int
  sig : List Nat × String × Int
deriving DecidableEq, Repr

/-- Ideal-MAC model of the jwt-go HS256 signature over the (pid, exp)
claims. -/
def hmacSig (key : List Nat) (pid : String) (exp : Int) :
    List Nat × String × Int :=
  (key, pid, exp)

/-- The Keyring of auth.go: a pre-shared symmetric key. -/
structure Keyring where
  key : List Nat
deriving DecidableEq, Repr

/-- Embedding of Keyring.SignWithTimeout: claims {pid, exp} signed with the
pre-shared key. -/
def Keyring.SignWithTimeout (k : Keyring) (pid : String) (exp : Int) : Token :=
  { pid := pid, exp := exp, sig := hmacSig k.key pid exp }

/-- Embedding of Keyring.Sign: SignWithTimeout with expiration five minutes
(300 seconds of Unix time) from issuance. -/
def Keyring.Sign (k : Keyring) (pid : String) (now : Int) : Token :=
  k.SignWithTimeout pid (now + 5 * 60)

/-- Error kinds of Keyring.Validate: jwt.Parse rejects a bad signature or an
expired token, then the pid claim is compared with the request pid. -/
inductive AuthError where
  | signatureInvalid
  | expired
  | wrongPid (got : String)
deriving DecidableEq, Repr

/-- Embedding of Keyring.Validate in auth.go: parse and check the signature,
reject an expired token (jwt-go treats exp < now as expired), then require
the pid claim to equal the request pid. -/
def Keyring.Validate (k : Keyring) (t : Token) (pid : String) (now : Int) :
    Except AuthError Unit :=
  if t.sig ≠ hmacSig k.key t.pid t.exp then Except.error AuthError.signatureInvalid
  else if t.exp < now then Except.error AuthError.expired
  else if t.pid = pid then Except.ok ()
  else Except.error (AuthError.wrongPid t.pid)

/-- C6: with the same pre-shared key, validate(sign(p), p) succeeds;
validate(sign(p), q) fails for q ≠ p; a token whose expiration has passed
fails validation; and sign sets the expiration five minutes from issuance. -/
theorem keyring_spec (k : Keyring) (p q : String) (now later : Int) :
    (k.Validate (k.Sign p now) p now = Except.ok ()) ∧
    (q ≠ p → k.Validate (k.Sign p now) q now =
      Except.error (AuthError.wrongPid p)) ∧
    ((k.Sign p now).exp < later →
      k.Validate (k.Sign p now) q later = Except.error AuthError.expired) ∧
    ((k.Sign p now).exp = now + 5 * 60) := by
  refine ⟨?_, ?_, ?_, rfl⟩
  · have h : ¬(now + 5 * 60 < now) := by omega
    simp [Keyring.Validate, Keyring.Sign, Keyring.SignWithTimeout, hmacSig, h]
  · intro hqp
    have h : ¬(now + 5 * 60 < now) := by omega
    have h2 : p ≠ q := Ne.symm hqp
    simp [Keyring.Validate, Keyring.Sign, Keyring.SignWithTimeout, hmacSig, h, h2]
  · intro hexp
    simp only [Keyring.Sign, Keyring.SignWithTimeout] at hexp
    have hexp2 : now + 300 < later := by omega
    simp [Keyring.Validate, Keyring.Sign, Keyring.SignWithTimeout, hmacSig, hexp2]

/-- C6 witness: the keyring properties at a concrete key, pids and times. -/
theorem keyring_spec_witness :
    ((Keyring.mk [1, 2]).Validate ((Keyring.mk [1, 2]).Sign "a" 0) "a" 0 =
      Except.ok ()) ∧
    ((Keyring.mk [1, 2]).Validate ((Keyring.mk [1, 2]).Sign "a" 0) "b" 0 =
      Except.error (AuthError.wrongPid "a")) ∧
    ((Keyring.mk [1, 2]).Validate ((Keyring.mk [1, 2]).Sign "a" 0) "b" 1000 =
      Except.error AuthError.expired) ∧
    (((Keyring.mk [1, 2]).Sign "a" 0).exp = 0 + 5 * 60) := by
  obtain ⟨h1, h2, h3, h4⟩ := keyring_spec (Keyring.mk [1, 2]) "a" "b" 0 1000
  exact ⟨h1, h2 (by decide), h3 (by decide), h4⟩

/-- The process header fields the broker reads (message.ProcessHeader). -/
structure ProcessHeader where
  ntasks : Int
  shape : P3
  index : List (List Int)
deriving DecidableEq, Repr

/-- Body of a status-endpoint response. -/
inductive StatusBody where
  | pending
  | working (progress : String)
  | finished (progress : String)
  | internalError
deriving DecidableEq, Repr

/-- Embedding of Result.Status in endpoint.go, after the stream-bus reads:
absent header key means 202 pending; a header that fails the ntasks >= 1
validation of parseProcessHeader means 500; otherwise compare xlen with
ntasks and report 200 finished n/n or 202 working k/n. -/
def statusEndpoint (hdr : Option ProcessHeader) (xlen : Nat) :
    Nat × StatusBody :=
  match hdr with
  | none => (202, StatusBody.pending)
  | some ph =>
    if ph.ntasks ≤ 0 then (500, StatusBody.internalError)
    else
      let completed := toString (xlen : Int) ++ "/" ++ toString ph.ntasks
      if (xlen : Int) = ph.ntasks then (200, StatusBody.finished completed)
      else (202, StatusBody.working completed)

/-- C7: the status endpoint returns 202 pending when the header key is
absent, 200 finished n/n when xlen equals ntasks, 202 working k/n otherwise,
and never reports finished while xlen < ntasks. -/
theorem status_spec (ph : ProcessHeader) (xlen : Nat) (hpos : 0 < ph.ntasks) :
    (statusEndpoint none xlen = (202, StatusBody.pending)) ∧
    ((xlen : Int) = ph.ntasks →
      statusEndpoint (some ph) xlen =
        (200, StatusBody.finished
          (toString (xlen : Int) ++ "/" ++ toString ph.ntasks))) ∧
    ((xlen : Int) ≠ ph.ntasks →
      statusEndpoint (some ph) xlen =
        (202, StatusBody.working
          (toString (xlen : Int) ++ "/" ++ toString ph.ntasks))) ∧
    ((xlen : Int) < ph.ntasks →
      ∀ pr, statusEndpoint (some ph) xlen ≠ (200, StatusBody.finished pr)) := by
  refine ⟨rfl, ?_, ?_, ?_⟩
  · intro hdone
    rw [statusEndpoint]
    rw [if_neg (by omega), if_pos hdone]
  · intro hne
    rw [statusEndpoint]
    rw [if_neg (by omega), if_neg hne]
  · intro hlt pr
    rw [statusEndpoint]
    rw [if_neg (by omega), if_neg (by omega)]
    simp

/-- C7 witness: the S6 scenario, ntasks 4 with xlen 2 and with xlen 4. -/
theorem status_spec_witness :
    (statusEndpoint none 2 = (202, StatusBody.pending)) ∧
    (statusEndpoint (some (ProcessHeader.mk 4 ⟨1, 1, 1⟩ [])) 4 =
      (200, StatusBody.finished (toString (4 : Int) ++ "/" ++ toString (4 : Int)))) ∧
    (statusEndpoint (some (ProcessHeader.mk 4 ⟨1, 1, 1⟩ [])) 2 =
      (202, StatusBody.working (toString (2 : Int) ++ "/" ++ toString (4 : Int)))) ∧
    (∀ pr, statusEndpoint (some (ProcessHeader.mk 4 ⟨1, 1, 1⟩ [])) 2 ≠
      (200, StatusBody.finished pr)) := by
  obtain ⟨h1, h2, -, -⟩ := status_spec (ProcessHeader.mk 4 ⟨1, 1, 1⟩ []) 4 (by decide)
  obtain ⟨-, -, h3, h4⟩ := status_spec (ProcessHeader.mk 4 ⟨1, 1, 1⟩ []) 2 (by decide)
  exact ⟨h1, h2 (by decide), h3 (by decide), h4 (by decide)⟩

/-- Little-endian decimal digits with structural fuel (fuel n is enough since
n / 10 < n). -/
def decDigitsAux : Nat → Nat → List Nat
  | 0, _ => []
  | _ + 1, 0 => []
  | fuel + 1, n + 1 => ((n + 1) % 10) :: decDigitsAux fuel ((n + 1) / 10)

/-- Little-endian decimal digits of n. -/
def decDigitsLE (n : Nat) : List Nat := decDigitsAux n n

/-- Decimal rendering of n zero-padded on the left to the given width, as a
big-endian digit list: the embedding of fmt.Sprintf with a zero-padded
width-10 verb in endpoint.go. -/
def zeroPadDec (width n : Nat) : List Nat :=
  List.replicate (width - (decDigitsLE n).length) 0 ++ (decDigitsLE n).reverse

/-- Embedding of the frame write of Result.Stream in endpoint.go: a
10-character zero-padded decimal ASCII prefix carrying 10 plus the payload
size, followed by the payload bytes. -/
def frameBytes (payload : List Nat) : List Nat :=
  (zeroPadDec 10 (10 + payload.length)).map (fun d => 48 + d) ++ payload

theorem decDigitsAux_eq_digits (fuel : Nat) :
    ∀ n, n ≤ fuel → decDigitsAux fuel n = Nat.digits 10 n := by
  induction fuel with
  | zero =>
    intro n hn
    obtain rfl : n = 0 := Nat.le_zero.mp hn
    simp [decDigitsAux]
  | succ fuel ih =>
    intro n hn
    match n with
    | 0 => simp [decDigitsAux]
    | n + 1 =>
      rw [decDigitsAux, Nat.digits_def' (by norm_num : (1:ℕ) < 10) (Nat.succ_pos n),
        ih ((n + 1) / 10) (by
          have := Nat.div_lt_self (Nat.succ_pos n) (by norm_num : 1 < 10)
          omega)]

theorem decDigitsLE_eq_digits (n : Nat) : decDigitsLE n = Nat.digits 10 n :=
  decDigitsAux_eq_digits n n (Nat.le_refl n)

theorem digits_len_le_of_lt_pow {m : Nat} (h : m < 10 ^ 10) :
    (Nat.digits 10 m).length ≤ 10 := by
  by_contra hlen
  push_neg at hlen
  rcases Nat.eq_zero_or_pos m with rfl | hm
  · simp at hlen
  · have h1 : (10 : ℕ) ^ (Nat.digits 10 m).length ≤ 10 * m :=
      Nat.base_pow_length_digits_le 10 m (by norm_num) (by omega)
    have h2 : (10 : ℕ) ^ 11 ≤ 10 ^ (Nat.digits 10 m).length :=
      Nat.pow_le_pow_right (by norm_num) (by omega)
    have h3 : (10 : ℕ) ^ 11 = 10 * 10 ^ 10 := by norm_num
    omega

theorem ofDigits_replicate_zero (b n : Nat) :
    Nat.ofDigits b (List.replicate n 0) = 0 := by
  induction n with
  | zero => rfl
  | succ n ih => simp [List.replicate_succ, Nat.ofDigits_cons, ih]

theorem zeroPadDec_length {n : Nat} (h : n < 10 ^ 10) :
    (zeroPadDec 10 n).length = 10 := by
  have hle : (decDigitsLE n).length ≤ 10 := by
    rw [decDigitsLE_eq_digits]
    exact digits_len_le_of_lt_pow h
  simp only [zeroPadDec, List.length_append, List.length_replicate,
    List.length_reverse]
  omega

theorem ofDigits_reverse_zeroPadDec {n : Nat} :
    Nat.ofDigits 10 (zeroPadDec 10 n).reverse = n := by
  rw [zeroPadDec, List.reverse_append, List.reverse_reverse,
    List.reverse_replicate, Nat.ofDigits_append, decDigitsLE_eq_digits,
    Nat.ofDigits_digits, ofDigits_replicate_zero]
  ring

set_option maxRecDepth 10000

/-- C9: each delivered frame is a 10-character zero-padded ASCII decimal
prefix whose value is 10 plus the payload size, followed by the payload; the
prefix holds decimal digit characters only; for a 240-byte tile the frame is
exactly the bytes of the string 0000000250 followed by the payload. -/
theorem frame_spec (payload : List Nat) (hlen : 10 + payload.length < 10 ^ 10) :
    ((frameBytes payload).take 10).length = 10 ∧
    (∀ c ∈ (frameBytes payload).take 10, 48 ≤ c ∧ c ≤ 57) ∧
    Nat.ofDigits 10
        ((((frameBytes payload).take 10).map (fun c => c - 48)).reverse) =
      10 + payload.length ∧
    (frameBytes payload).drop 10 = payload ∧
    frameBytes (List.replicate 240 0) =
      "0000000250".data.map Char.toNat ++ List.replicate 240 0 := by
  have hplen : ((zeroPadDec 10 (10 + payload.length)).map (fun d => 48 + d)).length
      = 10 := by
    rw [List.length_map, zeroPadDec_length hlen]
  have htake : (frameBytes payload).take 10 =
      (zeroPadDec 10 (10 + payload.length)).map (fun d => 48 + d) :=
    List.take_left' hplen
  have hdigit : ∀ d ∈ zeroPadDec 10 (10 + payload.length), d ≤ 9 := by
    intro d hd
    rw [zeroPadDec] at hd
    rcases List.mem_append.mp hd with hd | hd
    · have := List.eq_of_mem_replicate hd
      omega
    · rw [List.mem_reverse, decDigitsLE_eq_digits] at hd
      have := Nat.digits_lt_base (by norm_num : (1:ℕ) < 10) hd
      omega
  refine ⟨?_, ?_, ?_, ?_, ?_⟩
  · rw [htake, hplen]
  · intro c hc
    rw [htake] at hc
    obtain ⟨d, hd, rfl⟩ := List.mem_map.mp hc
    have := hdigit d hd
    omega
  · rw [htake, List.map_map]
    have hmap : (zeroPadDec 10 (10 + payload.length)).map
        ((fun c => c - 48) ∘ fun d => 48 + d) =
        zeroPadDec 10 (10 + payload.length) :=
      List.map_id'' (fun x => by simp) _
    rw [hmap, ofDigits_reverse_zeroPadDec]
  · exact List.drop_left' hplen
  · decide

/-- C9 witness: the framing specification at the 240-byte tile of S7. -/
theorem frame_spec_witness :
    ((frameBytes (List.replicate 240 0)).take 10).length = 10 ∧
    (∀ c ∈ (frameBytes (List.replicate 240 0)).take 10, 48 ≤ c ∧ c ≤ 57) ∧
    Nat.ofDigits 10
        ((((frameBytes (List.replicate 240 0)).take 10).map
          (fun c => c - 48)).reverse) =
      10 + (List.replicate (240 : Nat) (0 : Nat)).length ∧
    (frameBytes (List.replicate 240 0)).drop 10 = List.replicate 240 0 ∧
    frameBytes (List.replicate 240 0) =
      "0000000250".data.map Char.toNat ++ List.replicate 240 0 :=
  frame_spec (List.replicate 240 0) (by norm_num)

/-- One entry of the per-pid stream: workers push either a tile payload or a
single error entry keyed error. -/
inductive StreamEntry where
  | tile (bytes : List Nat)
  | errorEntry (msg : String)
deriving DecidableEq, Repr

/-- True on tile entries. -/
def StreamEntry.isTile : StreamEntry → Bool
  | tile _ => true
  | errorEntry _ => false

/-- Tile payload of an entry, if any. -/
def StreamEntry.tileBytes : StreamEntry → Option (List Nat)
  | tile b => some b
  | errorEntry _ => none

/-- Embedding of the collectResult drain loop of endpoint.go, viewed from the
consumer: walk the stream until the needed number of tiles is received,
stopping early on a worker error entry.  A none result corresponds to the
producer blocking in XRead because the stream ran out of entries; the
request context would eventually cancel it and the error path fires. -/
def collectTiles : Nat → List StreamEntry → Option (Except String (List (List Nat)))
  | 0, _ => some (Except.ok [])
  | _ + 1, [] => none
  | need + 1, e :: rest =>
    match e with
    | StreamEntry.errorEntry msg => some (Except.error msg)
    | StreamEntry.tile b =>
      match collectTiles need rest with
      | none => none
      | some (Except.error msg) => some (Except.error msg)
      | some (Except.ok ts) => some (Except.ok (b :: ts))

/-- Embedding of Result.Get in endpoint.go.  rhPack is the message codec's
pack of the derived ResultHeader (the codec lives outside the snapshot and
is passed as a parameter); the returned pair is the HTTP status and, for
200, the assembled octet-stream body. -/
def resultGet (rhPack : ProcessHeader → List Nat) (hdr : Option ProcessHeader)
    (entries : List StreamEntry) : Nat × Option (List Nat) :=
  match hdr with
  | none => (404, none)
  | some ph =>
    if ph.ntasks ≤ 0 then (500, none)
    else if (entries.length : Int) < ph.ntasks then (202, none)
    else
      match collectTiles ph.ntasks.toNat entries with
      | none => (500, none)
      | some (Except.error _) => (500, none)
      | some (Except.ok tiles) =>
        if ((1 + tiles.length : Int)) < ph.ntasks then (500, none)
        else (200, some (rhPack ph ++ tiles.flatten))

theorem collectTiles_all_tiles :
    ∀ (n : Nat) (entries : List StreamEntry), n ≤ entries.length →
      (∀ e ∈ entries.take n, e.isTile = true) →
      collectTiles n entries =
        some (Except.ok ((entries.take n).filterMap StreamEntry.tileBytes))
  | 0, entries, _, _ => by simp [collectTiles]
  | n + 1, [], hlen, _ => by simp at hlen
  | n + 1, e :: rest, hlen, htiles => by
    match e with
    | StreamEntry.errorEntry msg =>
      have := htiles (StreamEntry.errorEntry msg) (by simp)
      simp [StreamEntry.isTile] at this
    | StreamEntry.tile b =>
      rw [collectTiles, collectTiles_all_tiles n rest (by simpa using hlen)
        (fun e2 he2 => htiles e2 (by simp [he2]))]
      simp [StreamEntry.tileBytes]

theorem collectTiles_error :
    ∀ (n : Nat) (entries : List StreamEntry),
      (∃ e ∈ entries.take n, e.isTile = false) →
      ∃ msg, collectTiles n entries = some (Except.error msg)
  | 0, entries, h => by simp at h
  | n + 1, [], h => by simp at h
  | n + 1, e :: rest, h => by
    match e with
    | StreamEntry.errorEntry msg => exact ⟨msg, rfl⟩
    | StreamEntry.tile b =>
      obtain ⟨e2, he2, hfalse⟩ := h
      rw [List.take_succ_cons, List.mem_cons] at he2
      rcases he2 with rfl | he2
      · simp [StreamEntry.isTile] at hfalse
      · obtain ⟨msg, hmsg⟩ := collectTiles_error n rest ⟨e2, he2, hfalse⟩
        refine ⟨msg, ?_⟩
        rw [collectTiles, hmsg]

theorem filterMap_tileBytes_length (l : List StreamEntry)
    (h : ∀ e ∈ l, e.isTile = true) :
    (l.filterMap StreamEntry.tileBytes).length = l.length := by
  induction l with
  | nil => rfl
  | cons e rest ih =>
    match e with
    | StreamEntry.errorEntry msg =>
      have := h (StreamEntry.errorEntry msg) (by simp)
      simp [StreamEntry.isTile] at this
    | StreamEntry.tile b =>
      simp only [List.filterMap_cons, StreamEntry.tileBytes, List.length_cons]
      rw [ih (fun e2 he2 => h e2 (by simp [he2]))]

/-- C8: with a valid process header, the one-shot result endpoint answers
202 immediately when xlen < ntasks; when enough entries are present and the
needed prefix is all tiles it drains them into a single buffer, the packed
result header followed by the tile bytes concatenated without prefixes, with
status 200; when the drain hits a worker error entry, so that fewer than
ntasks tiles are collected, it answers 500. -/
theorem result_get_spec (rhPack : ProcessHeader → List Nat)
    (ph : ProcessHeader) (entries : List StreamEntry) (hpos : 0 < ph.ntasks) :
    ((entries.length : Int) < ph.ntasks →
      resultGet rhPack (some ph) entries = (202, none)) ∧
    (ph.ntasks ≤ (entries.length : Int) →
      (∀ e ∈ entries.take ph.ntasks.toNat, e.isTile = true) →
      resultGet rhPack (some ph) entries =
        (200, some (rhPack ph ++
          ((entries.take ph.ntasks.toNat).filterMap StreamEntry.tileBytes).flatten))) ∧
    (ph.ntasks ≤ (entries.length : Int) →
      (∃ e ∈ entries.take ph.ntasks.toNat, e.isTile = false) →
      resultGet rhPack (some ph) entries = (500, none)) := by
  refine ⟨?_, ?_, ?_⟩
  · intro hlt
    rw [resultGet, if_neg (by omega), if_pos hlt]
  · intro hge htiles
    have hn : ph.ntasks.toNat ≤ entries.length := by omega
    have hcollect := collectTiles_all_tiles ph.ntasks.toNat entries hn htiles
    have hlen : ((entries.take ph.ntasks.toNat).filterMap StreamEntry.tileBytes).length
        = ph.ntasks.toNat := by
      rw [filterMap_tileBytes_length _ htiles, List.length_take]
      omega
    have hcond : ¬((1 + ((((entries.take ph.ntasks.toNat).filterMap
        StreamEntry.tileBytes).length : Nat) : Int)) < ph.ntasks) := by
      rw [hlen]
      omega
    rw [resultGet, if_neg (by omega), if_neg (by omega), hcollect]
    simp [hcond]
  · intro hge herr
    obtain ⟨msg, hmsg⟩ := collectTiles_error ph.ntasks.toNat entries herr
    rw [resultGet, if_neg (by omega), if_neg (by omega), hmsg]

/-- C8 witness: ntasks 2 with three pending entries, all tiles. -/
theorem result_get_spec_witness :
    resultGet (fun _ => [9, 9]) (some (ProcessHeader.mk 2 ⟨1, 1, 1⟩ []))
        [StreamEntry.tile [1], StreamEntry.tile [2, 3], StreamEntry.tile [4]] =
      (200, some ((fun _ : ProcessHeader => [9, 9]) (ProcessHeader.mk 2 ⟨1, 1, 1⟩ []) ++
        (([StreamEntry.tile [1], StreamEntry.tile [2, 3],
            StreamEntry.tile [4]].take (2 : Int).toNat).filterMap
          StreamEntry.tileBytes).flatten)) :=
  (result_get_spec (fun _ => [9, 9]) (ProcessHeader.mk 2 ⟨1, 1, 1⟩ [])
      [StreamEntry.tile [1], StreamEntry.tile [2, 3], StreamEntry.tile [4]]
      (by decide)).2.1 (by decide) (by decide)

/-- Strict lexicographic order on the (x, y) part of a fragment id, used to
describe the column buckets of the curtain builder. -/
def pairLt (a b : Nat × Nat) : Prop :=
  a.1 < b.1 ∨ (a.1 = b.1 ∧ a.2 < b.2)

instance (a b : Nat × Nat) : Decidable (pairLt a b) := by
  unfold pairLt; infer_instance

/-- Boolean form of pairLt. -/
def pairLtB (a b : Nat × Nat) : Bool :=
  decide (pairLt a b)

theorem pairLt_irrefl (a : Nat × Nat) : ¬pairLt a a := by
  simp [pairLt]

theorem pairLt_trans {a b c : Nat × Nat} (h1 : pairLt a b) (h2 : pairLt b c) :
    pairLt a c := by
  rcases h1 with h1 | ⟨h1, h1b⟩ <;> rcases h2 with h2 | ⟨h2, h2b⟩ <;>
    simp only [pairLt] <;> omega

theorem pairLt_total {a b : Nat × Nat} (h1 : ¬pairLt a b) (h2 : a ≠ b) :
    pairLt b a := by
  rcases a with ⟨a1, a2⟩
  rcases b with ⟨b1, b2⟩
  simp only [pairLt] at h1 ⊢
  push_neg at h1
  obtain ⟨h3, h4⟩ := h1
  rcases Nat.lt_or_ge a1 b1 with h | h
  · omega
  · rcases Nat.lt_or_ge b1 a1 with h5 | h5
    · exact Or.inl h5
    · have he : a1 = b1 := by omega
      have h6 := h4 he
      have hne : a2 ≠ b2 := fun hcon => h2 (by rw [Prod.mk.injEq]; exact ⟨he, hcon⟩)
      exact Or.inr ⟨he.symm, by omega⟩

/-- One entry of the curtain fetch ids list (one::single): a fragment id
and the local coordinate pairs to extract from that fragment. -/
structure Single where
  id : P3
  coordinates : List (Nat × Nat)
deriving DecidableEq, Repr

/-- Column key of an input coordinate pair: the (x, y) part of the fragment
id of its top-of-column point. -/
def keyOf (g : Gvt) (q : Nat × Nat) : Nat × Nat :=
  ((g.frag_id ⟨q.1, q.2, 0⟩).x, (g.frag_id ⟨q.1, q.2, 0⟩).y)

/-- Local (x, y) pair of an input coordinate pair. -/
def localXY (g : Gvt) (q : Nat × Nat) : Nat × Nat :=
  ((g.to_local ⟨q.1, q.2, 0⟩).x, (g.to_local ⟨q.1, q.2, 0⟩).y)

/-- The full vertical stack of entries for one column: z runs over
0..fragment_count(2)-1, each entry carrying the same coordinate list. -/
def canonBlock (g : Gvt) (k : Nat × Nat) (coords : List (Nat × Nat)) :
    List Single :=
  (List.range (g.fragment_count 2)).map fun z => ⟨⟨k.1, k.2, z⟩, coords⟩

/-- Embedding of the first (bucket allocation) pass of the curtain builder in
plan.cpp, one input pair at a time: lower-bound the sorted ids by the
top-of-column fragment id (on a sorted list std::lower_bound returns the
first element that is not less, here expressed with takeWhile/dropWhile) and,
if the column is absent, insert its full stack of empty entries. -/
def curtainInsert (g : Gvt) (ids : List Single) (q : Nat × Nat) : List Single :=
  match ids.dropWhile fun s => P3.lexLtB s.id (g.frag_id ⟨q.1, q.2, 0⟩) with
  | [] =>
    (ids.takeWhile fun s => P3.lexLtB s.id (g.frag_id ⟨q.1, q.2, 0⟩)) ++
      canonBlock g ((g.frag_id ⟨q.1, q.2, 0⟩).x, (g.frag_id ⟨q.1, q.2, 0⟩).y) []
  | s :: rest =>
    if s.id = g.frag_id ⟨q.1, q.2, 0⟩ then ids
    else
      (ids.takeWhile fun s => P3.lexLtB s.id (g.frag_id ⟨q.1, q.2, 0⟩)) ++
        canonBlock g ((g.frag_id ⟨q.1, q.2, 0⟩).x, (g.frag_id ⟨q.1, q.2, 0⟩).y) [] ++
        (s :: rest)

/-- Embedding of the second (coordinate insertion) pass of the curtain
builder, one input pair at a time: lower-bound by the top-of-column fragment
id and append the local (x, y) pair to each of the zfrags entries of that
column. -/
def curtainBin (g : Gvt) (ids : List Single) (q : Nat × Nat) : List Single :=
  (ids.takeWhile fun s => P3.lexLtB s.id (g.frag_id ⟨q.1, q.2, 0⟩)) ++
    (((ids.dropWhile fun s => P3.lexLtB s.id (g.frag_id ⟨q.1, q.2, 0⟩)).take
        (g.fragment_count 2)).map
      (fun s => { s with coordinates := s.coordinates ++ [localXY g q] })) ++
    ((ids.dropWhile fun s => P3.lexLtB s.id (g.frag_id ⟨q.1, q.2, 0⟩)).drop
      (g.fragment_count 2))

/-- Embedding of schedule_maker(curtain_task, curtain_fetch)::build in
plan.cpp: the bucket allocation pass over the whole input followed by the
coordinate insertion pass. -/
def curtain_build (g : Gvt) (input : List (Nat × Nat)) : List Single :=
  input.foldl (curtainBin g) (input.foldl (curtainInsert g) [])

/-- Sorted insertion of a column key, the specification-side image of one
bucket allocation step. -/
def insertKey (k : Nat × Nat) : List (Nat × Nat) → List (Nat × Nat)
  | [] => [k]
  | k0 :: rest =>
    if pairLtB k0 k then k0 :: insertKey k rest
    else if k0 = k then k0 :: rest
    else k :: k0 :: rest

/-- The sorted, duplicate-free list of column keys touched by the input. -/
def keysOf (g : Gvt) (input : List (Nat × Nat)) : List (Nat × Nat) :=
  input.foldl (fun acc q => insertKey (keyOf g q) acc) []

/-- Canonical shape of the curtain ids list: the concatenated stacks of the
sorted column keys, each column's entries carrying that column's coordinate
list. -/
def canon (g : Gvt) (keys : List (Nat × Nat))
    (cf : Nat × Nat → List (Nat × Nat)) : List Single :=
  keys.flatMap fun k => canonBlock g k (cf k)

/-- Coordinate list accumulated for a column after processing a list of
input pairs: the local pairs of the occurrences of that column, in input
order. -/
def coordsFun (g : Gvt) (l : List (Nat × Nat)) :
    Nat × Nat → List (Nat × Nat) :=
  fun k => (l.filter fun q => keyOf g q == k).map (localXY g)

theorem lexLtB_block (a b z c d : Nat) :
    P3.lexLtB ⟨a, b, z⟩ ⟨c, d, 0⟩ = pairLtB (a, b) (c, d) := by
  simp only [P3.lexLtB, pairLtB, P3.lexLt, pairLt]
  exact decide_eq_decide.mpr (by omega)

theorem canonBlock_head (g : Gvt) (hz : 0 < g.fragment_count 2)
    (k : Nat × Nat) (coords : List (Nat × Nat)) :
    canonBlock g k coords =
      Single.mk ⟨k.1, k.2, 0⟩ coords ::
        ((List.range (g.fragment_count 2 - 1)).map fun z =>
          Single.mk ⟨k.1, k.2, z + 1⟩ coords) := by
  obtain ⟨m, hm⟩ : ∃ m, g.fragment_count 2 = m + 1 := ⟨_, (Nat.succ_pred_eq_of_pos hz).symm⟩
  rw [canonBlock, hm, List.range_succ_eq_map, List.map_cons, List.map_map]
  simp [Function.comp_def, Nat.add_comm]

theorem length_canonBlock (g : Gvt) (k : Nat × Nat) (coords : List (Nat × Nat)) :
    (canonBlock g k coords).length = g.fragment_count 2 := by
  simp [canonBlock]

theorem takeWhile_append_all {p : α → Bool} {l1 l2 : List α}
    (h : ∀ x ∈ l1, p x = true) :
    (l1 ++ l2).takeWhile p = l1 ++ l2.takeWhile p := by
  induction l1 with
  | nil => simp
  | cons a t ih =>
    rw [List.cons_append, List.takeWhile_cons, h a (by simp),
      ih (fun x hx => h x (by simp [hx]))]
    simp

theorem dropWhile_append_all {p : α → Bool} {l1 l2 : List α}
    (h : ∀ x ∈ l1, p x = true) :
    (l1 ++ l2).dropWhile p = l2.dropWhile p := by
  induction l1 with
  | nil => simp
  | cons a t ih =>
    rw [List.cons_append, List.dropWhile_cons, h a (by simp),
      ih (fun x hx => h x (by simp [hx]))]
    simp

theorem canon_nil (g : Gvt) (cf : Nat × Nat → List (Nat × Nat)) :
    canon g [] cf = [] := rfl

theorem canon_cons (g : Gvt) (k0 : Nat × Nat) (keys : List (Nat × Nat))
    (cf : Nat × Nat → List (Nat × Nat)) :
    canon g (k0 :: keys) cf = canonBlock g k0 (cf k0) ++ canon g keys cf := by
  simp [canon]

theorem canon_append (g : Gvt) (l1 l2 : List (Nat × Nat))
    (cf : Nat × Nat → List (Nat × Nat)) :
    canon g (l1 ++ l2) cf = canon g l1 cf ++ canon g l2 cf := by
  simp [canon]

theorem mem_canonBlock {g : Gvt} {k : Nat × Nat} {coords : List (Nat × Nat)}
    {s : Single} (h : s ∈ canonBlock g k coords) :
    ∃ z, z < g.fragment_count 2 ∧ s = ⟨⟨k.1, k.2, z⟩, coords⟩ := by
  rw [canonBlock] at h
  obtain ⟨z, hz, rfl⟩ := List.mem_map.mp h
  exact ⟨z, List.mem_range.mp hz, rfl⟩

theorem canonBlock_pred {g : Gvt} {k0 k : Nat × Nat}
    {coords : List (Nat × Nat)} {s : Single} (h : s ∈ canonBlock g k0 coords) :
    P3.lexLtB s.id ⟨k.1, k.2, 0⟩ = pairLtB k0 k := by
  obtain ⟨z, -, rfl⟩ := mem_canonBlock h
  rw [lexLtB_block]

theorem canon_takeWhile (g : Gvt) (hz : 0 < g.fragment_count 2)
    (k : Nat × Nat) (cf : Nat × Nat → List (Nat × Nat)) :
    ∀ keys : List (Nat × Nat),
      (canon g keys cf).takeWhile (fun s => P3.lexLtB s.id ⟨k.1, k.2, 0⟩) =
        canon g (keys.takeWhile fun k0 => pairLtB k0 k) cf
  | [] => by simp [canon]
  | k0 :: keys => by
    rw [canon_cons]
    rcases Bool.eq_false_or_eq_true (pairLtB k0 k) with hp | hp
    · rw [takeWhile_append_all
        (fun x hx => by rw [canonBlock_pred hx]; exact hp),
        canon_takeWhile g hz k cf keys, List.takeWhile_cons, hp]
      simp [canon_cons]
    · have hhead : P3.lexLtB (P3.mk k0.1 k0.2 0) ⟨k.1, k.2, 0⟩ = false := by
        rw [lexLtB_block]
        simpa using hp
      rw [canonBlock_head g hz, List.cons_append, List.takeWhile_cons]
      simp [hhead, List.takeWhile_cons, hp, canon]

theorem canon_dropWhile (g : Gvt) (hz : 0 < g.fragment_count 2)
    (k : Nat × Nat) (cf : Nat × Nat → List (Nat × Nat)) :
    ∀ keys : List (Nat × Nat),
      (canon g keys cf).dropWhile (fun s => P3.lexLtB s.id ⟨k.1, k.2, 0⟩) =
        canon g (keys.dropWhile fun k0 => pairLtB k0 k) cf
  | [] => by simp [canon]
  | k0 :: keys => by
    rw [canon_cons]
    rcases Bool.eq_false_or_eq_true (pairLtB k0 k) with hp | hp
    · rw [dropWhile_append_all
        (fun x hx => by rw [canonBlock_pred hx]; exact hp),
        canon_dropWhile g hz k cf keys, List.dropWhile_cons, hp]
      simp
    · have hhead : P3.lexLtB (P3.mk k0.1 k0.2 0) ⟨k.1, k.2, 0⟩ = false := by
        rw [lexLtB_block]
        simpa using hp
      rw [canonBlock_head g hz, List.cons_append, List.dropWhile_cons]
      simp only [hhead, Bool.false_eq_true, if_neg, List.dropWhile_cons, hp]
      rw [← List.cons_append, ← canonBlock_head g hz, ← canon_cons]
      simp [List.dropWhile_cons, hp]

theorem insertKey_eq (k : Nat × Nat) :
    ∀ keys : List (Nat × Nat),
      insertKey k keys =
        keys.takeWhile (fun k0 => pairLtB k0 k) ++
          (match keys.dropWhile (fun k0 => pairLtB k0 k) with
           | [] => [k]
           | k0 :: rest => if k0 = k then k0 :: rest else k :: k0 :: rest)
  | [] => by simp [insertKey]
  | k0 :: keys => by
    rw [insertKey]
    rcases Bool.eq_false_or_eq_true (pairLtB k0 k) with hp | hp
    · simp [hp, List.takeWhile_cons, List.dropWhile_cons, insertKey_eq k keys]
    · simp [hp, List.takeWhile_cons, List.dropWhile_cons]

theorem frag_id_top (g : Gvt) (q : Nat × Nat) :
    g.frag_id ⟨q.1, q.2, 0⟩ = ⟨(keyOf g q).1, (keyOf g q).2, 0⟩ := by
  simp [Gvt.frag_id, keyOf]

/-- Bucket allocation step on a canonical list: inserting an input pair
turns the sorted key list into its sorted key insertion, all coordinate
lists still empty. -/
theorem curtainInsert_canon (g : Gvt) (hz : 0 < g.fragment_count 2)
    (keys : List (Nat × Nat)) (q : Nat × Nat) :
    curtainInsert g (canon g keys fun _ => []) q =
      canon g (insertKey (keyOf g q) keys) fun _ => [] := by
  rw [curtainInsert]
  rw [frag_id_top]
  rw [canon_dropWhile g hz (keyOf g q), canon_takeWhile g hz (keyOf g q),
    insertKey_eq]
  cases hdw : keys.dropWhile (fun k0 => pairLtB k0 (keyOf g q)) with
  | nil =>
    rw [canon_nil]
    rw [canon_append]
    simp [canon, canonBlock]
  | cons k0 rest =>
    rw [canon_cons, canonBlock_head g hz, List.cons_append]
    simp only []
    by_cases heq : k0 = keyOf g q
    · rw [if_pos (show (P3.mk k0.1 k0.2 0) = ⟨(keyOf g q).1, (keyOf g q).2, 0⟩
          by rw [heq]),
        if_pos heq, ← hdw, List.takeWhile_append_dropWhile]
    · have hneq : (P3.mk k0.1 k0.2 0) ≠ ⟨(keyOf g q).1, (keyOf g q).2, 0⟩ := by
        intro hcon
        rw [P3.mk.injEq] at hcon
        exact heq (Prod.ext hcon.1 hcon.2.1)
      rw [if_neg hneq, if_neg heq]
      rw [← List.cons_append, ← canonBlock_head g hz]
      rw [canon_append, canon_cons, canon_cons]
      simp [List.append_assoc]

theorem mem_insertKey {x k : Nat × Nat} :
    ∀ {l : List (Nat × Nat)}, x ∈ insertKey k l → x = k ∨ x ∈ l
  | [], h => by
    simp [insertKey] at h
    exact Or.inl h
  | k0 :: rest, h => by
    rw [insertKey] at h
    rcases Bool.eq_false_or_eq_true (pairLtB k0 k) with hp | hp
    · rw [if_pos hp] at h
      rcases List.mem_cons.mp h with rfl | h2
      · exact Or.inr (by simp)
      · rcases mem_insertKey h2 with rfl | hx
        · exact Or.inl rfl
        · exact Or.inr (by simp [hx])
    · rw [if_neg (by simp [hp])] at h
      by_cases heq : k0 = k
      · rw [if_pos heq] at h
        exact Or.inr h
      · rw [if_neg heq] at h
        rcases List.mem_cons.mp h with rfl | h2
        · exact Or.inl rfl
        · exact Or.inr h2

theorem insertKey_self_mem (k : Nat × Nat) :
    ∀ l : List (Nat × Nat), k ∈ insertKey k l
  | [] => by simp [insertKey]
  | k0 :: rest => by
    rw [insertKey]
    rcases Bool.eq_false_or_eq_true (pairLtB k0 k) with hp | hp
    · rw [if_pos hp]
      exact List.mem_cons_of_mem _ (insertKey_self_mem k rest)
    · rw [if_neg (by simp [hp])]
      by_cases heq : k0 = k
      · rw [if_pos heq, heq]
        exact List.mem_cons_self _ _
      · rw [if_neg heq]
        exact List.mem_cons_self _ _

theorem insertKey_mem_of_mem {x : Nat × Nat} (k : Nat × Nat) :
    ∀ {l : List (Nat × Nat)}, x ∈ l → x ∈ insertKey k l
  | [], h => by simp at h
  | k0 :: rest, h => by
    rw [insertKey]
    rcases Bool.eq_false_or_eq_true (pairLtB k0 k) with hp | hp
    · rw [if_pos hp]
      rcases List.mem_cons.mp h with rfl | h2
      · exact List.mem_cons_self _ _
      · exact List.mem_cons_of_mem _ (insertKey_mem_of_mem k h2)
    · rw [if_neg (by simp [hp])]
      by_cases heq : k0 = k
      · rw [if_pos heq]
        exact h
      · rw [if_neg heq]
        exact List.mem_cons_of_mem _ h

theorem insertKey_sorted (k : Nat × Nat) :
    ∀ {l : List (Nat × Nat)}, List.Pairwise pairLt l →
      List.Pairwise pairLt (insertKey k l)
  | [], _ => by simp [insertKey]
  | k0 :: rest, h => by
    rw [List.pairwise_cons] at h
    obtain ⟨hk0, hrest⟩ := h
    rw [insertKey]
    rcases Bool.eq_false_or_eq_true (pairLtB k0 k) with hp | hp
    · rw [if_pos hp, List.pairwise_cons]
      refine ⟨?_, insertKey_sorted k hrest⟩
      intro x hx
      rcases mem_insertKey hx with rfl | hx2
      · exact of_decide_eq_true hp
      · exact hk0 x hx2
    · rw [if_neg (by simp [hp])]
      by_cases heq : k0 = k
      · rw [if_pos heq]
        exact List.pairwise_cons.mpr ⟨hk0, hrest⟩
      · rw [if_neg heq]
        have hkk0 : pairLt k k0 :=
          pairLt_total (of_decide_eq_false hp) heq
        rw [List.pairwise_cons]
        refine ⟨?_, List.pairwise_cons.mpr ⟨hk0, hrest⟩⟩
        intro x hx
        rcases List.mem_cons.mp hx with rfl | hx2
        · exact hkk0
        · exact pairLt_trans hkk0 (hk0 x hx2)

theorem foldl_insertKey_sorted (g : Gvt) :
    ∀ (input acc : List (Nat × Nat)), List.Pairwise pairLt acc →
      List.Pairwise pairLt
        (input.foldl (fun acc q => insertKey (keyOf g q) acc) acc)
  | [], _, h => h
  | _ :: input, _, h => foldl_insertKey_sorted g input _ (insertKey_sorted _ h)

theorem keysOf_sorted (g : Gvt) (input : List (Nat × Nat)) :
    List.Pairwise pairLt (keysOf g input) :=
  foldl_insertKey_sorted g input [] List.Pairwise.nil

theorem foldl_insertKey_mem (g : Gvt) :
    ∀ (input acc : List (Nat × Nat)) (x : Nat × Nat), x ∈ acc →
      x ∈ input.foldl (fun acc q => insertKey (keyOf g q) acc) acc
  | [], _, _, h => h
  | _ :: input, _, x, h =>
    foldl_insertKey_mem g input _ x (insertKey_mem_of_mem _ h)

theorem keyOf_mem_foldl (g : Gvt) :
    ∀ (input acc : List (Nat × Nat)) (q : Nat × Nat), q ∈ input →
      keyOf g q ∈ input.foldl (fun acc q => insertKey (keyOf g q) acc) acc
  | [], _, q, h => by simp at h
  | q0 :: input, acc, q, h => by
    rcases List.mem_cons.mp h with rfl | h2
    · exact foldl_insertKey_mem g input _ _ (insertKey_self_mem _ _)
    · exact keyOf_mem_foldl g input _ q h2

theorem keyOf_mem_keysOf (g : Gvt) (input : List (Nat × Nat)) (q : Nat × Nat)
    (h : q ∈ input) : keyOf g q ∈ keysOf g input :=
  keyOf_mem_foldl g input [] q h

theorem foldl_curtainInsert (g : Gvt) (hz : 0 < g.fragment_count 2) :
    ∀ (input keys : List (Nat × Nat)),
      input.foldl (curtainInsert g) (canon g keys fun _ => []) =
        canon g (input.foldl (fun acc q => insertKey (keyOf g q) acc) keys)
          fun _ => []
  | [], _ => rfl
  | q :: input, keys => by
    rw [List.foldl_cons, curtainInsert_canon g hz keys q, List.foldl_cons]
    exact foldl_curtainInsert g hz input _

/-- The bucket allocation pass produces exactly the canonical empty-
coordinate stacks of the sorted touched column keys. -/
theorem pass1_canon (g : Gvt) (hz : 0 < g.fragment_count 2)
    (input : List (Nat × Nat)) :
    input.foldl (curtainInsert g) [] = canon g (keysOf g input) fun _ => [] :=
  foldl_curtainInsert g hz input []

theorem sorted_dropWhile_mem {k : Nat × Nat} :
    ∀ {keys : List (Nat × Nat)}, List.Pairwise pairLt keys → k ∈ keys →
      ∃ l2, keys.dropWhile (fun k0 => pairLtB k0 k) = k :: l2 ∧
        (∀ x ∈ l2, pairLt k x)
  | [], _, h => by simp at h
  | k0 :: rest, hs, h => by
    rw [List.pairwise_cons] at hs
    obtain ⟨hk0, hrest⟩ := hs
    rw [List.dropWhile_cons]
    by_cases heq : k0 = k
    · subst heq
      have hff : pairLtB k0 k0 = false := decide_eq_false (pairLt_irrefl k0)
      rw [hff, if_neg (by simp)]
      exact ⟨rest, rfl, hk0⟩
    · rcases List.mem_cons.mp h with rfl | h2
      · exact absurd rfl heq
      · have hlt : pairLt k0 k := hk0 k h2
        rw [show pairLtB k0 k = true from decide_eq_true hlt, if_pos rfl]
        exact sorted_dropWhile_mem hrest h2

theorem canon_congr {g : Gvt} {keys : List (Nat × Nat)}
    {cf1 cf2 : Nat × Nat → List (Nat × Nat)}
    (h : ∀ k ∈ keys, cf1 k = cf2 k) : canon g keys cf1 = canon g keys cf2 := by
  induction keys with
  | nil => rfl
  | cons k0 rest ih =>
    rw [canon_cons, canon_cons, h k0 (by simp),
      ih (fun x hx => h x (by simp [hx]))]

theorem map_append_canonBlock (g : Gvt) (k : Nat × Nat)
    (coords : List (Nat × Nat)) (lid : Nat × Nat) :
    (canonBlock g k coords).map
        (fun s => { s with coordinates := s.coordinates ++ [lid] }) =
      canonBlock g k (coords ++ [lid]) := by
  rw [canonBlock, canonBlock, List.map_map]
  rfl

/-- Coordinate insertion step on a canonical list: appending one input pair
extends exactly its own column's coordinate list with the local pair. -/
theorem curtainBin_canon (g : Gvt) (hz : 0 < g.fragment_count 2)
    {keys : List (Nat × Nat)} (hs : List.Pairwise pairLt keys)
    (cf : Nat × Nat → List (Nat × Nat)) (q : Nat × Nat)
    (hk : keyOf g q ∈ keys) :
    curtainBin g (canon g keys cf) q =
      canon g keys (fun k2 =>
        if k2 = keyOf g q then cf k2 ++ [localXY g q] else cf k2) := by
  obtain ⟨l2, hdw, hl2⟩ := sorted_dropWhile_mem hs hk
  have hsplit : keys =
      keys.takeWhile (fun k0 => pairLtB k0 (keyOf g q)) ++ (keyOf g q :: l2) := by
    rw [← hdw, List.takeWhile_append_dropWhile]
  rw [curtainBin, frag_id_top,
    canon_takeWhile g hz (keyOf g q), canon_dropWhile g hz (keyOf g q), hdw,
    canon_cons,
    List.take_left' (length_canonBlock g _ _),
    List.drop_left' (length_canonBlock g _ _),
    map_append_canonBlock]
  conv_rhs => rw [hsplit]
  rw [canon_append, canon_cons, List.append_assoc]
  congr 1
  · apply canon_congr
    intro x hx
    have hpx := List.mem_takeWhile_imp hx
    have hlt : pairLt x (keyOf g q) := of_decide_eq_true hpx
    have hne : x ≠ keyOf g q := fun hcon => pairLt_irrefl _ (hcon ▸ hlt)
    rw [if_neg hne]
  · congr 1
    · rw [if_pos rfl]
    · apply canon_congr
      intro x hx
      have hlt := hl2 x hx
      have hne : x ≠ keyOf g q := fun hcon => pairLt_irrefl _ (by
        rw [hcon] at hlt
        exact hlt)
      rw [if_neg hne]

theorem foldl_curtainBin (g : Gvt) (hz : 0 < g.fragment_count 2)
    {keys : List (Nat × Nat)} (hs : List.Pairwise pairLt keys) :
    ∀ (rem done : List (Nat × Nat)), (∀ q ∈ rem, keyOf g q ∈ keys) →
      rem.foldl (curtainBin g) (canon g keys (coordsFun g done)) =
        canon g keys (coordsFun g (done ++ rem))
  | [], done, _ => by simp
  | q :: rem, done, hmem => by
    rw [List.foldl_cons, curtainBin_canon g hz hs _ q (hmem q (by simp))]
    have hcf : (fun k2 => if k2 = keyOf g q
          then coordsFun g done k2 ++ [localXY g q] else coordsFun g done k2) =
        coordsFun g (done ++ [q]) := by
      funext k2
      rw [coordsFun, coordsFun, List.filter_append, List.map_append]
      by_cases hk2 : k2 = keyOf g q
      · rw [if_pos hk2]
        subst hk2
        simp
      · rw [if_neg hk2]
        have : (keyOf g q == k2) = false := by
          simp only [beq_eq_false_iff_ne]
          exact fun hcon => hk2 hcon.symm
        simp [this]
    rw [hcf,
      foldl_curtainBin g hz hs rem (done ++ [q])
        (fun x hx => hmem x (by simp [hx]))]
    simp

/-- The curtain builder produces exactly the canonical list: the sorted
touched column keys expanded to full stacks, each entry carrying the local
pairs of its column's occurrences in input order. -/
theorem curtain_build_canon (g : Gvt) (hz : 0 < g.fragment_count 2)
    (input : List (Nat × Nat)) :
    curtain_build g input = canon g (keysOf g input) (coordsFun g input) := by
  rw [curtain_build, pass1_canon g hz]
  have h0 : canon g (keysOf g input) (fun _ => []) =
      canon g (keysOf g input) (coordsFun g []) := rfl
  rw [h0,
    foldl_curtainBin g hz (keysOf_sorted g input) input []
      (fun q hq => keyOf_mem_keysOf g input q hq),
    List.nil_append]

theorem lexLt_irrefl (a : P3) : ¬P3.lexLt a a := by
  simp [P3.lexLt]

theorem canon_sorted (g : Gvt) {keys : List (Nat × Nat)}
    (hs : List.Pairwise pairLt keys) (cf : Nat × Nat → List (Nat × Nat)) :
    List.Pairwise (fun s1 s2 : Single => P3.lexLt s1.id s2.id)
      (canon g keys cf) := by
  rw [canon, List.pairwise_flatMap]
  constructor
  · intro k hk
    rw [canonBlock, List.pairwise_map]
    refine (List.pairwise_lt_range _).imp ?_
    intro z1 z2 hz12
    exact Or.inr ⟨rfl, Or.inr ⟨rfl, hz12⟩⟩
  · refine hs.imp ?_
    intro k1 k2 hk12 x hx y hy
    obtain ⟨z1, -, rfl⟩ := mem_canonBlock hx
    obtain ⟨z2, -, rfl⟩ := mem_canonBlock hy
    rcases hk12 with h | ⟨h1, h2⟩
    · exact Or.inl h
    · exact Or.inr ⟨h1, Or.inl h2⟩

/-- C5: the ids list built by the curtain builder is strictly
lexicographically ascending, hence duplicate-free, and for every input pair
the full vertical stack of fragment_count(2) entries of its column is
present, z running 0..zfrags-1, each entry carrying the local
(x mod F0, y mod F1) pair of every occurrence of that column in the input. -/
theorem curtain_build_spec (g : Gvt) (input : List (Nat × Nat))
    (hfx : 0 < g.frag.x) (hfy : 0 < g.frag.y) (hfz : 0 < g.frag.z)
    (hcz : 0 < g.cube.z) :
    List.Pairwise (fun s1 s2 : Single => P3.lexLt s1.id s2.id)
      (curtain_build g input) ∧
    (curtain_build g input).Nodup ∧
    (∀ q ∈ input, ∀ z < g.fragment_count 2,
      Single.mk ⟨q.1 / g.frag.x, q.2 / g.frag.y, z⟩
          ((input.filter fun q2 => keyOf g q2 == keyOf g q).map (localXY g)) ∈
        curtain_build g input) := by
  have hz : 0 < g.fragment_count 2 := by
    simp only [Gvt.fragment_count, P3.get]
    exact (Nat.le_div_iff_mul_le hfz).mpr (by omega)
  rw [curtain_build_canon g hz]
  refine ⟨canon_sorted g (keysOf_sorted g input) _, ?_, ?_⟩
  · exact List.Pairwise.imp
      (fun h hcon => absurd (hcon ▸ h) (lexLt_irrefl _))
      (canon_sorted g (keysOf_sorted g input) _)
  · intro q hq z hzlt
    rw [canon, List.mem_flatMap]
    refine ⟨keyOf g q, keyOf_mem_keysOf g input q hq, ?_⟩
    rw [canonBlock, List.mem_map]
    refine ⟨z, List.mem_range.mpr hzlt, ?_⟩
    simp [keyOf, Gvt.frag_id, coordsFun]

/-- C5 witness: geometry cube (4,4,4), fragment (2,2,2) with input pairs
(1,3), (0,0), (1,2): two touched columns, two z-fragments each. -/
theorem curtain_build_spec_witness :
    List.Pairwise (fun s1 s2 : Single => P3.lexLt s1.id s2.id)
      (curtain_build (Gvt.mk ⟨4, 4, 4⟩ ⟨2, 2, 2⟩) [(1, 3), (0, 0), (1, 2)]) ∧
    (curtain_build (Gvt.mk ⟨4, 4, 4⟩ ⟨2, 2, 2⟩) [(1, 3), (0, 0), (1, 2)]).Nodup ∧
    (∀ q ∈ [((1 : Nat), (3 : Nat)), (0, 0), (1, 2)],
      ∀ z < (Gvt.mk ⟨4, 4, 4⟩ ⟨2, 2, 2⟩).fragment_count 2,
      Single.mk ⟨q.1 / 2, q.2 / 2, z⟩
          (([((1 : Nat), (3 : Nat)), (0, 0), (1, 2)].filter
              fun q2 => keyOf (Gvt.mk ⟨4, 4, 4⟩ ⟨2, 2, 2⟩) q2 ==
                keyOf (Gvt.mk ⟨4, 4, 4⟩ ⟨2, 2, 2⟩) q).map
            (localXY (Gvt.mk ⟨4, 4, 4⟩ ⟨2, 2, 2⟩))) ∈
        curtain_build (Gvt.mk ⟨4, 4, 4⟩ ⟨2, 2, 2⟩) [(1, 3), (0, 0), (1, 2)]) :=
  curtain_build_spec (Gvt.mk ⟨4, 4, 4⟩ ⟨2, 2, 2⟩) [(1, 3), (0, 0), (1, 2)]
    (by decide) (by decide) (by decide) (by decide)

end Oneseismic
